import Mathlib

/-!
Verification of the University Course Timetabling core: the constraint /
fitness model and the two stochastic search engines (genetic search,
simulated annealing), shallowly embedded from `genetic.py` and
`simulated_annealing.py`.

Schedules are Python dicts mapping a course to a `(time, room)` pair; they
are embedded as association lists without duplicate-key collapsing (every
dict the code builds has the instance's course list as its keys).  Random
draws (`random.choice`, `random.sample`, `random.random() < p` comparisons)
are embedded as explicit oracle inputs, so every theorem quantifying over
oracles covers every realizable execution.  Fallible operations (Python
`IndexError` / `KeyError` / `ValueError`) return `Except String`.
-/

namespace UCTP

/-- Association-list lookup: the embedding of a Python dict read
(`d.get(k)`, `k in d`, `d[k]`); the first binding of the key wins. -/
def alookup {α β : Type} [DecidableEq α] : List (α × β) → α → Option β
  | [], _ => none
  | p :: rest, k => if p.1 = k then some p.2 else alookup rest k

/-- Python `d[k] = v`: rebind the first occurrence of `k`, else append. -/
def aupdate {α β : Type} [DecidableEq α] : List (α × β) → α → β → List (α × β)
  | [], k, v => [(k, v)]
  | p :: rest, k, v => if p.1 = k then (k, v) :: rest else p :: aupdate rest k v

/-- The loop `for t in set(xs): c = xs.count(t); if c > 1: acc += c - 1`
shared by constraints 1 and 3-5 of both engines: for each distinct element,
its multiplicity minus one. -/
def conflictExcess {α : Type} [DecidableEq α] (l : List α) : Nat :=
  (l.dedup.map (fun t => if 1 < l.count t then l.count t - 1 else 0)).sum

abbrev Course := String
abbrev Room := String
abbrev TimeSlot := String
abbrev Slot := TimeSlot × Room
abbrev Schedule := List (Course × Slot)

/-- One value of the `course_details` attribute table.  `department` and
`instructor` are read with `.get(...)`, so they may be absent (`none`) or
present-but-falsy (`some ""`, Python's empty string). `students` is read with
`.get('students', 0)`; a details record of the repository's data always
carries it, so it is a plain field here, and a course missing from the table
altogether yields enrollment 0 through the outer `.get(course, {})`. -/
structure CourseInfo where
  students : Int
  department : Option String
  instructor : Option String
deriving DecidableEq, Repr

/-- The problem instance: the six read-only collections handed to both
engine constructors as `data`. -/
structure Instance where
  course_details : List (Course × CourseInfo)
  courses : List Course
  room_capacities : List (Room × Int)
  rooms : List Room
  times : List TimeSlot
  course_conflicts : List (List Course)
deriving Repr

/-- `random.choice(seq)`: the oracle supplies an index; an empty sequence
raises `IndexError`.  The index is reduced modulo the length, so every
oracle value models a draw and every draw is modelled by some oracle. -/
def pyChoice {α : Type} (l : List α) (k : Nat) : Except String α :=
  if h : l.length = 0 then .error "IndexError"
  else .ok (l.get ⟨k % l.length, Nat.mod_lt k (Nat.pos_of_ne_zero h)⟩)

/-- `seq[i]` at a non-negative index: out of range raises `IndexError`. -/
def pyIndex {α : Type} (l : List α) (i : Nat) : Except String α :=
  if h : i < l.length then .ok (l.get ⟨i, h⟩) else .error "IndexError"

/-- `d[k]` on a dict: a missing key raises `KeyError`. -/
def pyDictGet {β : Type} (l : List (String × β)) (k : String) :
    Except String β :=
  match alookup l k with
  | some v => .ok v
  | none => .error "KeyError"

/-- Python `max` over a list of ints: the empty list raises `ValueError`. -/
def pythonMaxInt : List Int → Except String Int
  | [] => .error "ValueError"
  | x :: xs => .ok (xs.foldl max x)

/-- `current_best > self.best_fitness` where the initial best is
`float('-inf')` (modelled as `none`), smaller than every integer. -/
def betterThan (c : Int) : Option Int → Bool
  | none => true
  | some b => decide (b < c)

namespace GA

/-- `genetic.py`: `self.PENALTIES = [1000, 1000, 500, 1000, 1000]`. -/
def PENALTIES : List Int := [1000, 1000, 500, 1000, 1000]

/-- `genetic.py` `constraint1`: courses are grouped by their exact
`(time, room)` pair and each group of size `s > 1` adds `s - 1`; the group
sizes are the multiplicities of each distinct slot among the dict's values,
so the total is `conflictExcess` of the assigned-slot list. -/
def constraint1 (individual : Schedule) : Int :=
  (conflictExcess (individual.map Prod.snd) : Int) * PENALTIES.getD 0 0

/-- The body of the per-course loop of `genetic.py` `constraint2`:
`enrollment = course_details.get(course, {}).get('students', 0)`,
`room_cap = room_capacities.get(r, 0)`, penalize
`(enrollment - room_cap) * PENALTIES[1]` when `room_cap < enrollment`. -/
def c2term (course_details : List (Course × CourseInfo))
    (room_capacities : List (Room × Int)) (e : Course × Slot) : Int :=
  let enrollment := ((alookup course_details e.1).map CourseInfo.students).getD 0
  let room_cap := (alookup room_capacities e.2.2).getD 0
  if room_cap < enrollment then (enrollment - room_cap) * PENALTIES.getD 1 0 else 0

/-- `genetic.py` `constraint2`. -/
def constraint2 (individual : Schedule) (course_details : List (Course × CourseInfo))
    (room_capacities : List (Room × Int)) : Int :=
  (individual.map (c2term course_details room_capacities)).sum

/-- The `dept_courses` / `teacher_courses` grouping of `constraint3` /
`constraint4`: each attribute-table entry is tagged with its grouping value
when that is present and truthy (Python: `if dept:` rejects `None` and `""`). -/
def taggedBy (f : CourseInfo → Option String)
    (course_details : List (Course × CourseInfo)) : List (String × Course) :=
  course_details.filterMap (fun p =>
    match f p.2 with
    | some d => if d = "" then none else some (d, p.1)
    | none => none)

/-- `[individual[course][0] for course in group if course in individual]`
for the group of courses tagged `g`. -/
def timesAssigned (tagged : List (String × Course)) (g : String)
    (individual : Schedule) : List TimeSlot :=
  (tagged.filter (fun q => q.1 = g)).filterMap
    (fun q => (alookup individual q.2).map Prod.fst)

/-- `genetic.py` `constraint3`: department co-scheduling conflicts.  The
conflict count is accumulated over every department (the distinct tags) and
multiplied by `PENALTIES[2]` once at the end, as in the source. -/
def constraint3 (individual : Schedule)
    (course_details : List (Course × CourseInfo)) : Int :=
  let tagged := taggedBy CourseInfo.department course_details
  (((tagged.map Prod.fst).dedup).map
    (fun d => (conflictExcess (timesAssigned tagged d individual) : Int))).sum
    * PENALTIES.getD 2 0

/-- `genetic.py` `constraint4`: instructor exclusivity conflicts. -/
def constraint4 (individual : Schedule)
    (course_details : List (Course × CourseInfo)) : Int :=
  let tagged := taggedBy CourseInfo.instructor course_details
  (((tagged.map Prod.fst).dedup).map
    (fun d => (conflictExcess (timesAssigned tagged d individual) : Int))).sum
    * PENALTIES.getD 3 0

/-- `genetic.py` `constraint5`: declared conflict groups. -/
def constraint5 (individual : Schedule)
    (course_conflicts : List (List Course)) : Int :=
  ((course_conflicts.map (fun g =>
    (conflictExcess (g.filterMap
      (fun c => (alookup individual c).map Prod.fst)) : Int))).sum)
    * PENALTIES.getD 4 0

/-- `genetic.py` `fitness`: the five penalties summed and negated. -/
def fitness (inst : Instance) (individual : Schedule) : Int :=
  -(constraint1 individual
    + constraint2 individual inst.course_details inst.room_capacities
    + constraint3 individual inst.course_details
    + constraint4 individual inst.course_details
    + constraint5 individual inst.course_conflicts)

/-- Oracle for one genetic run.  `tour g k`: the three positions
`random.sample` draws for tournament `k` of generation `g` (sampling without
replacement is abstracted; any three positions may be supplied, so every real
sample is covered).  `cross g pr i`: the outcome of `random.random() < 0.5`
for course `i` while crossing parent pair `pr`.  `mutOracle g j i`: the outcome of
`random.random() < mutation_rate` and the two `random.choice` indices for
course `i` of child `j`. -/
structure GAOracle where
  tour : Nat → Nat → Nat × Nat × Nat
  cross : Nat → Nat → Nat → Bool
  mutOracle : Nat → Nat → Nat → Bool × Nat × Nat

/-- Constructor parameters of `GeneticAlgorithm`.  `mutation_rate` only sets
the probability of the mutation coin, which the oracle supplies directly, so
it does not reappear in the model. -/
structure GAConfig where
  population_size : Nat
  generations : Nat

/-- `create_individual`: each course of `self.courses`, in order, is given a
random time and room; `i` is the position of the course in the list. -/
def createIndividual (inst : Instance) (pick : Nat → Nat × Nat) :
    List Course → Nat → Except String Schedule
  | [], _ => .ok []
  | c :: rest, i => do
    let t ← pyChoice inst.times (pick i).1
    let r ← pyChoice inst.rooms (pick i).2
    let tail ← createIndividual inst pick rest (i + 1)
    .ok ((c, (t, r)) :: tail)

/-- The constructor's
`[self.create_individual() for _ in range(population_size)]`;
`k` is the position in the comprehension. -/
def initPopAux (inst : Instance) (io : Nat → Nat → Nat × Nat) :
    Nat → Nat → Except String (List Schedule)
  | 0, _ => .ok []
  | n + 1, k => do
    let s ← createIndividual inst (io k) inst.courses 0
    let rest ← initPopAux inst io n (k + 1)
    .ok (s :: rest)

def initPopulation (inst : Instance) (io : Nat → Nat → Nat × Nat) (n : Nat) :
    Except String (List Schedule) :=
  initPopAux inst io n 0

/-- `crossover`'s loop over `self.courses`: with coin `true` child 1 takes
parent 1's assignment of the course and child 2 parent 2's, with coin `false`
the children swap; `parent[course]` raises `KeyError` when absent. -/
def crossoverAux (coin : Nat → Bool) (p1 p2 : Schedule) :
    List Course → Nat → Except String (Schedule × Schedule)
  | [], _ => .ok ([], [])
  | c :: rest, i => do
    let a1 ← pyDictGet p1 c
    let a2 ← pyDictGet p2 c
    let tails ← crossoverAux coin p1 p2 rest (i + 1)
    if coin i then .ok ((c, a1) :: tails.1, (c, a2) :: tails.2)
    else .ok ((c, a2) :: tails.1, (c, a1) :: tails.2)

/-- `crossover(parent1, parent2)`. -/
def crossover (inst : Instance) (coin : Nat → Bool) (p1 p2 : Schedule) :
    Except String (Schedule × Schedule) :=
  crossoverAux coin p1 p2 inst.courses 0

/-- `mutate`: each key of the individual, in order, is re-assigned a fresh
random `(time, room)` when its coin fires. -/
def gaMutate (inst : Instance) (mo : Nat → Bool × Nat × Nat) :
    Schedule → Nat → Except String Schedule
  | [], _ => .ok []
  | (c, a) :: rest, i => do
    let e ← if (mo i).1 then do
        let t ← pyChoice inst.times (mo i).2.1
        let r ← pyChoice inst.rooms (mo i).2.2
        pure ((c, (t, r)) : Course × Slot)
      else pure ((c, a) : Course × Slot)
    let tail ← gaMutate inst mo rest (i + 1)
    .ok (e :: tail)

/-- Python `max(competitors, key=lambda x: x[1])`: the first maximal element
(a later competitor replaces the champion only when strictly fitter). -/
def tournamentWinner (c : Schedule × Int) (rest : List (Schedule × Int)) :
    Schedule :=
  (rest.foldl (fun acc x => if acc.2 < x.2 then x else acc) c).1

/-- `select_population(population, fitness, num_selected)`:
`random.sample(list(zip(...)), 3)` raises `ValueError` when the zipped list
holds fewer than 3 entries; otherwise each of the `n` tournaments keeps the
fittest of its three competitors. -/
def selectPopulation (pop : List Schedule) (fits : List Int) (n : Nat)
    (tour : Nat → Nat × Nat × Nat) : Except String (List Schedule) :=
  let zipped := pop.zip fits
  if zipped.length < 3 then .error "ValueError"
  else .ok ((List.range n).map (fun k =>
    let t := tour k
    let c1 := zipped.getD (t.1 % zipped.length) ([], 0)
    let c2 := zipped.getD (t.2.1 % zipped.length) ([], 0)
    let c3 := zipped.getD (t.2.2 % zipped.length) ([], 0)
    tournamentWinner c1 [c2, c3]))

/-- The pairing loop `for i in range(0, self.population_size, 2)`: pair `pr`
crosses `selected[2*pr]` with `selected[(2*pr + 1) % population_size]` and
extends the next generation with both children; `cnt` pairs remain. -/
def gaBreed (inst : Instance) (n : Nat) (co : Nat → Nat → Bool)
    (selected : List Schedule) : Nat → Nat → Except String (List Schedule)
  | 0, _ => .ok []
  | cnt + 1, pr => do
    let p1 ← pyIndex selected (2 * pr)
    let p2 ← pyIndex selected ((2 * pr + 1) % n)
    let cs ← crossover inst (co pr) p1 p2
    let rest ← gaBreed inst n co selected cnt (pr + 1)
    .ok (cs.1 :: cs.2 :: rest)

/-- `self.population = [self.mutate(child) for child in next_generation]`. -/
def mutatePopulation (inst : Instance) (mo : Nat → Nat → Bool × Nat × Nat) :
    List Schedule → Nat → Except String (List Schedule)
  | [], _ => .ok []
  | s :: rest, j => do
    let s' ← gaMutate inst (mo j) s 0
    let tail ← mutatePopulation inst mo rest (j + 1)
    .ok (s' :: tail)

/-- Mutable attributes of a `GeneticAlgorithm` touched by `run`. -/
structure GAState where
  population : List Schedule
  best : Option Schedule
  bestFit : Option Int
  history : List Int
deriving Repr

/-- Whether a generation ended in the `break` of `run` (`stop`) or fell
through to breeding the next population (`next`). -/
inductive GAStepRes where
  | stop (st : GAState)
  | next (st : GAState)
deriving Repr

/-- The evaluation prefix of one generation of `run`: append the
generation's best `cb` to the history and, when it beats the global best,
record it together with `self.population[fitnesses.index(current_best)]`. -/
def evalPhase (inst : Instance) (st : GAState) (cb : Int) : GAState :=
  let fits := st.population.map (GA.fitness inst)
  let upd := betterThan cb st.bestFit
  ⟨st.population,
    if upd then st.population.get? (fits.indexOf cb) else st.best,
    if upd then some cb else st.bestFit,
    st.history ++ [cb]⟩

/-- One iteration of `run`'s generation loop: evaluate, record the
generation's best, update the global best, break when it is 0, otherwise
select, cross over pairwise and mutate every child. -/
def gaStep (inst : Instance) (cfg : GAConfig) (o : GAOracle) (g : Nat)
    (st : GAState) : Except String GAStepRes := do
  let fits := st.population.map (GA.fitness inst)
  let cb ← pythonMaxInt fits
  let st1 := evalPhase inst st cb
  if st1.bestFit = some 0 then
    .ok (.stop st1)
  else do
    let selected ← selectPopulation st.population fits cfg.population_size (o.tour g)
    let children ← gaBreed inst cfg.population_size (o.cross g) selected
        ((cfg.population_size + 1) / 2) 0
    let pop' ← mutatePopulation inst (o.mutOracle g) children 0
    .ok (.next ⟨pop', st1.best, st1.bestFit, st1.history⟩)

/-- `run`'s loop, `fuel` generations left, `k` the generation counter. -/
def gaRunAux (inst : Instance) (cfg : GAConfig) (o : GAOracle) :
    Nat → Nat → GAState → Except String GAState
  | 0, _, st => .ok st
  | g + 1, k, st =>
    match gaStep inst cfg o k st with
    | .error e => .error e
    | .ok (.stop st') => .ok st'
    | .ok (.next st') => gaRunAux inst cfg o g (k + 1) st'

/-- `run()` from the freshly initialized population. -/
def gaRun (inst : Instance) (cfg : GAConfig) (o : GAOracle)
    (pop0 : List Schedule) : Except String GAState :=
  gaRunAux inst cfg o cfg.generations 0 ⟨pop0, none, none, []⟩

end GA

/-- An exact rational written as an unnormalized fraction with positive
denominator: the embedding of the float temperature arithmetic of the
simulated-annealing loop (the idealization the spec's numeric-caution note
assumes; kept unnormalized so that concrete runs reduce inside the kernel). -/
structure Frac where
  num : Int
  den : Int
deriving Repr, DecidableEq

/-- Fraction multiplication (`temperature *= cooling_rate`). -/
def Frac.mul (a b : Frac) : Frac := ⟨a.num * b.num, a.den * b.den⟩

/-- `a ≤ b` on positive-denominator fractions, by cross-multiplication. -/
def Frac.le (a b : Frac) : Prop := a.num * b.den ≤ b.num * a.den

instance (a b : Frac) : Decidable (a.le b) := by
  unfold Frac.le
  infer_instance

namespace SA

/-- `simulated_annealing.py`: `self.PENALTIES = [1000, 1000, 500, 1000, 1000]`. -/
def PENALTIES : List Int := [1000, 1000, 500, 1000, 1000]

/-- `simulated_annealing.py` `constraint1` (same grouping as the genetic
engine's: multiplicities of each distinct assigned slot). -/
def constraint1 (individual : Schedule) : Int :=
  (conflictExcess (individual.map Prod.snd) : Int) * PENALTIES.getD 0 0

/-- Per-course body of `simulated_annealing.py` `constraint2` (the table
arguments are `self.course_details` / `self.room_capacities`). -/
def c2term (course_details : List (Course × CourseInfo))
    (room_capacities : List (Room × Int)) (e : Course × Slot) : Int :=
  let enrollment := ((alookup course_details e.1).map CourseInfo.students).getD 0
  let room_cap := (alookup room_capacities e.2.2).getD 0
  if room_cap < enrollment then (enrollment - room_cap) * PENALTIES.getD 1 0 else 0

/-- `simulated_annealing.py` `constraint2`. -/
def constraint2 (inst : Instance) (individual : Schedule) : Int :=
  (individual.map (c2term inst.course_details inst.room_capacities)).sum

/-- Grouping step of `simulated_annealing.py` `constraint3` / `constraint4`. -/
def taggedBy (f : CourseInfo → Option String)
    (course_details : List (Course × CourseInfo)) : List (String × Course) :=
  course_details.filterMap (fun p =>
    match f p.2 with
    | some d => if d = "" then none else some (d, p.1)
    | none => none)

/-- Times assigned to the courses of one group that the schedule contains. -/
def timesAssigned (tagged : List (String × Course)) (g : String)
    (individual : Schedule) : List TimeSlot :=
  (tagged.filter (fun q => q.1 = g)).filterMap
    (fun q => (alookup individual q.2).map Prod.fst)

/-- `simulated_annealing.py` `constraint3`. -/
def constraint3 (inst : Instance) (individual : Schedule) : Int :=
  let tagged := taggedBy CourseInfo.department inst.course_details
  (((tagged.map Prod.fst).dedup).map
    (fun d => (conflictExcess (timesAssigned tagged d individual) : Int))).sum
    * PENALTIES.getD 2 0

/-- `simulated_annealing.py` `constraint4`. -/
def constraint4 (inst : Instance) (individual : Schedule) : Int :=
  let tagged := taggedBy CourseInfo.instructor inst.course_details
  (((tagged.map Prod.fst).dedup).map
    (fun d => (conflictExcess (timesAssigned tagged d individual) : Int))).sum
    * PENALTIES.getD 3 0

/-- `simulated_annealing.py` `constraint5`. -/
def constraint5 (inst : Instance) (individual : Schedule) : Int :=
  ((inst.course_conflicts.map (fun g =>
    (conflictExcess (g.filterMap
      (fun c => (alookup individual c).map Prod.fst)) : Int))).sum)
    * PENALTIES.getD 4 0

/-- `simulated_annealing.py` `fitness`. -/
def fitness (inst : Instance) (individual : Schedule) : Int :=
  -(constraint1 individual + constraint2 inst individual
    + constraint3 inst individual + constraint4 inst individual
    + constraint5 inst individual)

/-- Constructor parameters of `SimulatedAnnealing`.  Float temperature
arithmetic is embedded as exact rational arithmetic (`Frac`). -/
structure SAConfig where
  initial_temperature : Frac
  cooling_rate : Frac
  max_iter : Nat

/-- The freeze floor `1e-10` of `run`. -/
def tempFloor : Frac := ⟨1, 10 ^ 10⟩

/-- Oracle values of one simulated-annealing iteration: the three
`random.choice` indices of `neighbor` and the outcome of the comparison
`random.random() < math.exp(delta / temperature)`.  (When `delta > 0` the
`or` short-circuits and the draw is not consulted.) -/
structure SAChoice where
  courseIdx : Nat
  timeIdx : Nat
  roomIdx : Nat
  draw : Bool

/-- `neighbor`: copy the current schedule and re-assign one random course to
a random `(time, room)`; `random.choice` on an empty list raises. -/
def neighbor (inst : Instance) (ch : SAChoice) (individual : Schedule) :
    Except String Schedule := do
  let course ← pyChoice inst.courses ch.courseIdx
  let t ← pyChoice inst.times ch.timeIdx
  let r ← pyChoice inst.rooms ch.roomIdx
  .ok (aupdate individual course (t, r))

/-- Mutable attributes of a `SimulatedAnnealing` run. -/
structure SAState where
  current : Schedule
  curFit : Int
  best : Schedule
  bestFit : Int
  temp : Frac
  history : List Int
deriving Repr

/-- One-to-max_iter iterations of `run`'s loop: cool, break at the floor,
propose a neighbor, accept when strictly better or when the Metropolis draw
fires, track the best, append the current fitness to the history.  `fuel` is
the number of loop iterations left, `i` the iteration counter. -/
def saLoop (inst : Instance) (cfg : SAConfig) (o : Nat → SAChoice) :
    Nat → Nat → SAState → Except String SAState
  | 0, _, st => .ok st
  | fuel + 1, i, st =>
    let temp' := st.temp.mul cfg.cooling_rate
    if temp'.le tempFloor then
      .ok ⟨st.current, st.curFit, st.best, st.bestFit, temp', st.history⟩
    else do
      let cand ← neighbor inst (o i) st.current
      let candFit := SA.fitness inst cand
      let delta := candFit - st.curFit
      let accept := decide (0 < delta) || (o i).draw
      let cur' := if accept then cand else st.current
      let cf' := if accept then candFit else st.curFit
      let b' := if st.bestFit < cf' then cur' else st.best
      let bf' := if st.bestFit < cf' then cf' else st.bestFit
      saLoop inst cfg o fuel (i + 1) ⟨cur', cf', b', bf', temp', st.history ++ [cf']⟩

/-- `run()`: start from the schedule built at construction time, seed best
and best-fitness with it, then iterate. -/
def saRun (inst : Instance) (cfg : SAConfig) (o : Nat → SAChoice)
    (s0 : Schedule) : Except String SAState :=
  saLoop inst cfg o cfg.max_iter 0
    ⟨s0, SA.fitness inst s0, s0, SA.fitness inst s0, cfg.initial_temperature, []⟩

end SA

/-- The Metropolis acceptance value `math.exp(delta / temperature)` of
`simulated_annealing.py` `run`, over the reals. -/
noncomputable def acceptProb (delta : Int) (temperature : ℝ) : ℝ :=
  Real.exp ((delta : ℝ) / temperature)

/-- The acceptance test `delta > 0 or random.random() < math.exp(...)`, `r`
being the value `random.random()` draws (always in `[0, 1)`). -/
def saAccept (delta : Int) (temperature r : ℝ) : Prop :=
  0 < delta ∨ r < acceptProb delta temperature

lemma except_bind_ok {α β : Type} (x : Except String α) (f : α → Except String β)
    (b : β) :
    (x >>= f = Except.ok b) ↔ ∃ a, x = Except.ok a ∧ f a = Except.ok b := by
  cases x with
  | error e =>
    simp only [show (Except.error e >>= f) = Except.error e from rfl]
    constructor
    · intro h; cases h
    · rintro ⟨a, ha, -⟩; cases ha
  | ok a =>
    simp only [show (Except.ok a >>= f) = f a from rfl]
    constructor
    · intro h; exact ⟨a, rfl, h⟩
    · rintro ⟨a2, ha, hf⟩; cases ha; exact hf

lemma pyDictGet_ok {β : Type} {l : List (String × β)} {k : String} {v : β}
    (h : pyDictGet l k = Except.ok v) : alookup l k = some v := by
  unfold pyDictGet at h
  cases hl : alookup l k with
  | none => rw [hl] at h; cases h
  | some w => rw [hl] at h; cases h; rfl

section ConstraintLemmas

lemma ga_constraint1_nonneg (individual : Schedule) : 0 ≤ GA.constraint1 individual := by
  have h : GA.PENALTIES.getD 0 0 = 1000 := rfl
  unfold GA.constraint1
  rw [h]
  positivity

lemma ga_c2term_nonneg (cd : List (Course × CourseInfo)) (caps : List (Room × Int))
    (e : Course × Slot) : 0 ≤ GA.c2term cd caps e := by
  unfold GA.c2term
  have h : GA.PENALTIES.getD 1 0 = 1000 := rfl
  rw [h]
  dsimp only
  split
  · rename_i hlt
    exact le_of_lt (mul_pos (by omega) (by norm_num))
  · exact le_refl 0

lemma ga_constraint2_nonneg (individual : Schedule) (cd : List (Course × CourseInfo))
    (caps : List (Room × Int)) : 0 ≤ GA.constraint2 individual cd caps := by
  unfold GA.constraint2
  refine List.sum_nonneg ?_
  intro x hx
  obtain ⟨e, _, rfl⟩ := List.mem_map.mp hx
  exact ga_c2term_nonneg cd caps e

lemma ga_constraint3_nonneg (individual : Schedule) (cd : List (Course × CourseInfo)) :
    0 ≤ GA.constraint3 individual cd := by
  have h : GA.PENALTIES.getD 2 0 = 500 := rfl
  unfold GA.constraint3
  rw [h]
  refine mul_nonneg (List.sum_nonneg ?_) (by norm_num)
  intro x hx
  obtain ⟨d, _, rfl⟩ := List.mem_map.mp hx
  positivity

lemma ga_constraint4_nonneg (individual : Schedule) (cd : List (Course × CourseInfo)) :
    0 ≤ GA.constraint4 individual cd := by
  have h : GA.PENALTIES.getD 3 0 = 1000 := rfl
  unfold GA.constraint4
  rw [h]
  refine mul_nonneg (List.sum_nonneg ?_) (by norm_num)
  intro x hx
  obtain ⟨d, _, rfl⟩ := List.mem_map.mp hx
  positivity

lemma ga_constraint5_nonneg (individual : Schedule) (groups : List (List Course)) :
    0 ≤ GA.constraint5 individual groups := by
  have h : GA.PENALTIES.getD 4 0 = 1000 := rfl
  unfold GA.constraint5
  rw [h]
  refine mul_nonneg (List.sum_nonneg ?_) (by norm_num)
  intro x hx
  obtain ⟨g, _, rfl⟩ := List.mem_map.mp hx
  positivity

end ConstraintLemmas

lemma alookup_eq_none_keys {α β : Type} [DecidableEq α] (l : List (α × β)) (k : α)
    (h : alookup l k = none) : ∀ p ∈ l, p.1 ≠ k := by
  induction l with
  | nil => intro p hp; cases hp
  | cons q rest ih =>
    intro p hp
    unfold alookup at h
    by_cases hq : q.1 = k
    · simp [hq] at h
    · rcases List.mem_cons.mp hp with rfl | hp
      · exact hq
      · exact ih (by simpa [hq] using h) p hp

lemma notMem_taggedBy_of_missing (f : CourseInfo → Option String)
    (cd : List (Course × CourseInfo)) (c : Course) (d : String)
    (h : alookup cd c = none) : (d, c) ∉ GA.taggedBy f cd := by
  intro hmem
  unfold GA.taggedBy at hmem
  obtain ⟨p, hp, hpe⟩ := List.mem_filterMap.mp hmem
  have hkey : p.1 ≠ c := alookup_eq_none_keys cd c h p hp
  rcases hfp : f p.2 with _ | dv
  · rw [hfp] at hpe; cases hpe
  · rw [hfp] at hpe
    by_cases hd : dv = ""
    · simp [hd] at hpe
    · simp only [hd, if_neg, ite_false] at hpe
      exact hkey (congrArg Prod.snd (Option.some.inj hpe))

/-- C1: the genetic engine's and the simulated-annealing engine's duplicated
scoring implementations are numerically identical: for every problem instance
and every schedule the two `fitness` functions return the same integer, both
being the negated sum of the same five penalty terms weighted
`[1000, 1000, 500, 1000, 1000]`. -/
theorem ga_sa_fitness_identical (inst : Instance) (individual : Schedule) :
    GA.fitness inst individual = SA.fitness inst individual := rfl

/-- C2: for every problem instance and every schedule, fitness is a
non-positive integer, and it is zero exactly when each of the five constraint
functions reports zero penalty. -/
theorem fitness_nonpos_and_zero_iff (inst : Instance) (individual : Schedule) :
    GA.fitness inst individual ≤ 0 ∧
    (GA.fitness inst individual = 0 ↔
      GA.constraint1 individual = 0 ∧
      GA.constraint2 individual inst.course_details inst.room_capacities = 0 ∧
      GA.constraint3 individual inst.course_details = 0 ∧
      GA.constraint4 individual inst.course_details = 0 ∧
      GA.constraint5 individual inst.course_conflicts = 0) := by
  have h1 := ga_constraint1_nonneg individual
  have h2 := ga_constraint2_nonneg individual inst.course_details inst.room_capacities
  have h3 := ga_constraint3_nonneg individual inst.course_details
  have h4 := ga_constraint4_nonneg individual inst.course_details
  have h5 := ga_constraint5_nonneg individual inst.course_conflicts
  unfold GA.fitness
  omega

/-- C3 counterexample: a room absent from `room_capacities` does NOT add
zero capacity penalty.  With one course of 5 students assigned to room `r`
and an empty capacity table, the missing room defaults to capacity 0 and
`constraint2` charges `(5 - 0) * 1000 = 5000`. -/
theorem missing_room_is_penalized_cex :
    GA.constraint2 [("A", ("t", "r"))] [("A", ⟨5, none, none⟩)] [] = 5000 ∧
    (5000 : Int) ≠ 0 := by
  constructor
  · rfl
  · decide

/-- C3 amended: a course absent from `course_details` is scored with
enrollment 0 (hence, when the looked-up capacity default is not negative, it
adds no capacity penalty) and belongs to no department or instructor group;
a room absent from `room_capacities`, however, is treated as capacity 0, so
a course with positive enrollment assigned to it adds
`enrollment * 1000` of penalty rather than zero. -/
theorem missing_lookups_default (cd : List (Course × CourseInfo))
    (caps : List (Room × Int)) (cA cB : Course) (t1 r1 t2 r2 : String)
    (info : CourseInfo) (d : String)
    (hA : alookup cd cA = none) (hB : alookup cd cB = some info)
    (hr : alookup caps r2 = none)
    (hcap1 : 0 ≤ ((alookup caps r1).getD 0 : Int)) :
    GA.c2term cd caps (cA, (t1, r1)) = 0 ∧
    (d, cA) ∉ GA.taggedBy CourseInfo.department cd ∧
    (d, cA) ∉ GA.taggedBy CourseInfo.instructor cd ∧
    GA.c2term cd caps (cB, (t2, r2)) =
      (if 0 < info.students then info.students * 1000 else 0) := by
  refine ⟨?_, ?_, ?_, ?_⟩
  · have hz : ((alookup cd cA).map CourseInfo.students).getD 0 = 0 := by rw [hA]; rfl
    unfold GA.c2term
    dsimp only
    rw [hz, if_neg (by omega)]
  · exact notMem_taggedBy_of_missing CourseInfo.department cd cA d hA
  · exact notMem_taggedBy_of_missing CourseInfo.instructor cd cA d hA
  · have hs : ((alookup cd cB).map CourseInfo.students).getD 0 = info.students := by
      rw [hB]; rfl
    have hc : ((alookup caps r2).getD 0 : Int) = 0 := by rw [hr]; rfl
    have h1000 : GA.PENALTIES.getD 1 0 = 1000 := rfl
    unfold GA.c2term
    dsimp only
    rw [hs, hc, h1000, Int.sub_zero]

/-- C3 witness: the amended statement evaluated on a concrete table in which
course `A` is missing, course `B` has 5 students, and the capacity table is
empty. -/
theorem missing_lookups_default_witness :
    alookup ([("B", ⟨5, none, none⟩)] : List (Course × CourseInfo)) "A" = none ∧
    (GA.c2term [("B", ⟨5, none, none⟩)] [] ("A", ("t", "r")) = 0 ∧
    ("X", "A") ∉ GA.taggedBy CourseInfo.department [("B", ⟨5, none, none⟩)] ∧
    ("X", "A") ∉ GA.taggedBy CourseInfo.instructor [("B", ⟨5, none, none⟩)] ∧
    GA.c2term [("B", ⟨5, none, none⟩)] [] ("B", ("t", "r")) =
      (if 0 < (5 : Int) then (5 : Int) * 1000 else 0)) :=
  ⟨rfl, missing_lookups_default [("B", ⟨5, none, none⟩)] [] "A" "B" "t" "r" "t" "r"
    ⟨5, none, none⟩ "X" rfl rfl rfl (by decide)⟩

/-- C7: with positive temperature and a non-improving move (`delta ≤ 0`) the
Metropolis acceptance value `exp(delta / temperature)` is a well-defined real
in `(0, 1]`, and at the `delta = 0` boundary the move is always accepted,
since `exp(0/T) = 1` and `random.random()` draws `r ∈ [0, 1)` with `r < 1`. -/
theorem sa_acceptance_bounds (delta : Int) (temperature r : ℝ)
    (hT : 0 < temperature) (hd : delta ≤ 0) (hr0 : 0 ≤ r) (hr1 : r < 1) :
    0 < acceptProb delta temperature ∧ acceptProb delta temperature ≤ 1 ∧
    (delta = 0 → saAccept delta temperature r) := by
  refine ⟨Real.exp_pos _, ?_, ?_⟩
  · unfold acceptProb
    rw [Real.exp_le_one_iff]
    exact div_nonpos_of_nonpos_of_nonneg (by exact_mod_cast hd) hT.le
  · intro h0
    subst h0
    right
    unfold acceptProb
    simpa using hr1

/-- C7 witness: the acceptance bounds at `delta = 0`, `temperature = 1`,
`r = 1/2`. -/
theorem sa_acceptance_bounds_witness :
    (0 : ℝ) < 1 ∧ (0 : Int) ≤ 0 ∧ (0 : ℝ) ≤ 1 / 2 ∧ (1 / 2 : ℝ) < 1 ∧
    (0 < acceptProb 0 1 ∧ acceptProb 0 1 ≤ 1 ∧
      ((0 : Int) = 0 → saAccept 0 1 (1 / 2))) :=
  ⟨by norm_num, le_refl 0, by norm_num, by norm_num,
    sa_acceptance_bounds 0 1 (1 / 2) (by norm_num) (le_refl 0) (by norm_num)
      (by norm_num)⟩

lemma crossoverAux_closure (coin : Nat → Bool) (p1 p2 : Schedule) :
    ∀ (cs : List Course) (i : Nat) (ch1 ch2 : Schedule),
      GA.crossoverAux coin p1 p2 cs i = .ok (ch1, ch2) →
      ∀ course ∈ cs,
        (alookup ch1 course = alookup p1 course ∧
         alookup ch2 course = alookup p2 course) ∨
        (alookup ch1 course = alookup p2 course ∧
         alookup ch2 course = alookup p1 course) := by
  intro cs
  induction cs with
  | nil => intro i ch1 ch2 _ course hmem; cases hmem
  | cons c rest ih =>
    intro i ch1 ch2 h course hmem
    simp only [GA.crossoverAux] at h
    rw [except_bind_ok] at h
    obtain ⟨a1, h1, h⟩ := h
    rw [except_bind_ok] at h
    obtain ⟨a2, h2, h⟩ := h
    rw [except_bind_ok] at h
    obtain ⟨tails, h3, h⟩ := h
    have hp1 : alookup p1 c = some a1 := pyDictGet_ok h1
    have hp2 : alookup p2 c = some a2 := pyDictGet_ok h2
    by_cases hcc : c = course
    · subst hcc
      split at h
      · obtain ⟨hA, hB⟩ := Prod.mk.inj (Except.ok.inj h)
        left
        constructor
        · rw [← hA]; simpa [alookup] using hp1.symm
        · rw [← hB]; simpa [alookup] using hp2.symm
      · obtain ⟨hA, hB⟩ := Prod.mk.inj (Except.ok.inj h)
        right
        constructor
        · rw [← hA]; simpa [alookup] using hp2.symm
        · rw [← hB]; simpa [alookup] using hp1.symm
    · have hr : course ∈ rest := by
        rcases List.mem_cons.mp hmem with heq | hr
        · exact absurd heq.symm hcc
        · exact hr
      have htails := ih (i + 1) tails.1 tails.2 (by rw [h3]) course hr
      split at h
      · obtain ⟨hA, hB⟩ := Prod.mk.inj (Except.ok.inj h)
        rw [← hA, ← hB]
        simpa [alookup, hcc] using htails
      · obtain ⟨hA, hB⟩ := Prod.mk.inj (Except.ok.inj h)
        rw [← hA, ← hB]
        simp only [alookup, hcc, if_false]
        tauto

/-- C9: every child of uniform crossover gives each course the whole
`(time, room)` pair of exactly one of the two parents, and the two children
are complementary: with the same coin, child 1 looks the course up in one
parent exactly when child 2 looks it up in the other. -/
theorem crossover_mixes_whole_pairs (inst : Instance) (coin : Nat → Bool)
    (p1 p2 ch1 ch2 : Schedule) (course : Course)
    (h : GA.crossover inst coin p1 p2 = .ok (ch1, ch2))
    (hc : course ∈ inst.courses) :
    (alookup ch1 course = alookup p1 course ∧
     alookup ch2 course = alookup p2 course) ∨
    (alookup ch1 course = alookup p2 course ∧
     alookup ch2 course = alookup p1 course) :=
  crossoverAux_closure coin p1 p2 inst.courses 0 ch1 ch2 h course hc

/-- Two-course instance and parents used to evaluate the crossover theorem. -/
def xInst : Instance := ⟨[], ["A", "B"], [], [], [], []⟩

def xP1 : Schedule := [("A", ("t1", "r1")), ("B", ("t2", "r2"))]

def xP2 : Schedule := [("A", ("t3", "r3")), ("B", ("t4", "r4"))]

/-- Heads-for-course-0, tails-for-course-1 coin. -/
def xCoin (i : Nat) : Bool := i % 2 = 0

def xCh1 : Schedule := [("A", ("t1", "r1")), ("B", ("t4", "r4"))]

def xCh2 : Schedule := [("A", ("t3", "r3")), ("B", ("t2", "r2"))]

/-- C9 witness: the crossover closure evaluated on two concrete parents. -/
theorem crossover_mixes_whole_pairs_witness :
    GA.crossover xInst xCoin xP1 xP2 = .ok (xCh1, xCh2) ∧
    "B" ∈ xInst.courses ∧
    ((alookup xCh1 "B" = alookup xP1 "B" ∧ alookup xCh2 "B" = alookup xP2 "B") ∨
     (alookup xCh1 "B" = alookup xP2 "B" ∧ alookup xCh2 "B" = alookup xP1 "B")) :=
  ⟨rfl, by decide,
    crossover_mixes_whole_pairs xInst xCoin xP1 xP2 xCh1 xCh2 "B" rfl (by decide)⟩

lemma gaStep_inv (inst : Instance) (cfg : GA.GAConfig) (o : GA.GAOracle) (g : Nat)
    (st : GA.GAState) (r : GA.GAStepRes) (h : GA.gaStep inst cfg o g st = .ok r) :
    ∃ cb, pythonMaxInt (st.population.map (GA.fitness inst)) = .ok cb ∧
      (((GA.evalPhase inst st cb).bestFit = some 0 ∧
          r = .stop (GA.evalPhase inst st cb)) ∨
       (¬ (GA.evalPhase inst st cb).bestFit = some 0 ∧
        ∃ sel ch pop',
          GA.selectPopulation st.population (st.population.map (GA.fitness inst))
            cfg.population_size (o.tour g) = .ok sel ∧
          GA.gaBreed inst cfg.population_size (o.cross g) sel
            ((cfg.population_size + 1) / 2) 0 = .ok ch ∧
          GA.mutatePopulation inst (o.mutOracle g) ch 0 = .ok pop' ∧
          r = .next ⟨pop', (GA.evalPhase inst st cb).best,
            (GA.evalPhase inst st cb).bestFit,
            (GA.evalPhase inst st cb).history⟩)) := by
  simp only [GA.gaStep] at h
  rw [except_bind_ok] at h
  obtain ⟨cb, hmax, h⟩ := h
  refine ⟨cb, hmax, ?_⟩
  split at h
  · rename_i h0
    left
    exact ⟨h0, (Except.ok.inj h).symm⟩
  · rename_i h0
    right
    rw [except_bind_ok] at h
    obtain ⟨sel, hsel, h⟩ := h
    rw [except_bind_ok] at h
    obtain ⟨ch, hch, h⟩ := h
    rw [except_bind_ok] at h
    obtain ⟨pop', hpop, h⟩ := h
    exact ⟨h0, sel, ch, pop', hsel, hch, hpop, (Except.ok.inj h).symm⟩

lemma gaBreed_ok_length (inst : Instance) (n : Nat) (co : Nat → Nat → Bool)
    (sel : List Schedule) :
    ∀ cnt pr ch, GA.gaBreed inst n co sel cnt pr = .ok ch →
      ch.length = 2 * cnt := by
  intro cnt
  induction cnt with
  | zero =>
    intro pr ch h
    simp only [GA.gaBreed] at h
    cases Except.ok.inj h
    rfl
  | succ k ih =>
    intro pr ch h
    simp only [GA.gaBreed] at h
    rw [except_bind_ok] at h
    obtain ⟨p1, -, h⟩ := h
    rw [except_bind_ok] at h
    obtain ⟨p2, -, h⟩ := h
    rw [except_bind_ok] at h
    obtain ⟨cs, -, h⟩ := h
    rw [except_bind_ok] at h
    obtain ⟨rest, hrest, h⟩ := h
    cases Except.ok.inj h
    have := ih (pr + 1) rest hrest
    simp only [List.length_cons, this]
    omega

lemma mutatePopulation_ok_length (inst : Instance) (mo : Nat → Nat → Bool × Nat × Nat) :
    ∀ l j l', GA.mutatePopulation inst mo l j = .ok l' → l'.length = l.length := by
  intro l
  induction l with
  | nil =>
    intro j l' h
    simp only [GA.mutatePopulation] at h
    cases Except.ok.inj h
    rfl
  | cons s rest ih =>
    intro j l' h
    simp only [GA.mutatePopulation] at h
    rw [except_bind_ok] at h
    obtain ⟨s', -, h⟩ := h
    rw [except_bind_ok] at h
    obtain ⟨tail, htail, h⟩ := h
    cases Except.ok.inj h
    simp only [List.length_cons, ih (j + 1) tail htail]

/-- C4 amended: a generation that breeds a next population always produces
`2 * ⌈population_size / 2⌉` children — equal to `population_size` when that
is even, but `population_size + 1` when it is odd, because the wrap-around
pair contributes two children as well; so for odd sizes the population at
the start of every later generation exceeds `population_size` by one. -/
theorem ga_next_generation_size (inst : Instance) (cfg : GA.GAConfig) (o : GA.GAOracle)
    (g : Nat) (st st' : GA.GAState)
    (h : GA.gaStep inst cfg o g st = .ok (.next st')) :
    st'.population.length = 2 * ((cfg.population_size + 1) / 2) ∧
    (cfg.population_size % 2 = 0 → st'.population.length = cfg.population_size) ∧
    (cfg.population_size % 2 = 1 → st'.population.length = cfg.population_size + 1) := by
  obtain ⟨cb, hmax, hcase⟩ := gaStep_inv inst cfg o g st _ h
  rcases hcase with ⟨-, heq⟩ | ⟨-, sel, ch, pop', hsel, hch, hpop, heq⟩
  · cases heq
  · have hst : st' = ⟨pop', (GA.evalPhase inst st cb).best,
        (GA.evalPhase inst st cb).bestFit, (GA.evalPhase inst st cb).history⟩ :=
      GA.GAStepRes.next.inj heq
    have h1 := gaBreed_ok_length inst cfg.population_size (o.cross g) sel
      ((cfg.population_size + 1) / 2) 0 ch hch
    have h2 := mutatePopulation_ok_length inst (o.mutOracle g) ch 0 pop' hpop
    rw [hst]
    refine ⟨?_, ?_, ?_⟩ <;> simp only [] <;> omega

lemma ok_bind {α β : Type} (a : α) (f : α → Except String β) :
    (Except.ok a >>= f) = f a := rfl

lemma foldl_max_mem (xs : List Int) (x : Int) : xs.foldl max x ∈ x :: xs := by
  induction xs generalizing x with
  | nil => exact List.mem_singleton.mpr rfl
  | cons y ys ih =>
    have h := ih (max x y)
    show List.foldl max (max x y) ys ∈ x :: y :: ys
    rcases List.mem_cons.mp h with h | h
    · rcases max_choice x y with hm | hm
      · rw [h, hm]; exact List.mem_cons_self _ _
      · rw [h, hm]; exact List.mem_cons.mpr (Or.inr (List.mem_cons_self _ _))
    · exact List.mem_cons.mpr (Or.inr (List.mem_cons.mpr (Or.inr h)))

lemma pythonMaxInt_mem {l : List Int} {m : Int} (h : pythonMaxInt l = .ok m) :
    m ∈ l := by
  cases l with
  | nil => cases h
  | cons x xs =>
    cases Except.ok.inj h
    exact foldl_max_mem xs x

lemma fitness_at_recorded_index (f : Schedule → Int) (pop : List Schedule)
    (c : Int) (b : Schedule)
    (hb : pop.get? ((pop.map f).indexOf c) = some b) : f b = c := by
  have hlt : (pop.map f).indexOf c < pop.length := by
    by_contra hge
    rw [List.get?_eq_none.mpr (le_of_not_lt hge)] at hb
    cases hb
  have hb' : pop.get ⟨(pop.map f).indexOf c, hlt⟩ = b := by
    rw [List.get?_eq_get hlt] at hb
    exact Option.some.inj hb
  have hidx : (pop.map f).get ⟨(pop.map f).indexOf c, by simpa using hlt⟩ = c :=
    List.indexOf_get (by simpa using hlt)
  rw [List.get_map, hb'] at hidx
  exact hidx

/-- `self.best_fitness` as it stands on entering any generation the run has
not stopped in: still `float('-inf')` or strictly negative. -/
def negOpt : Option Int → Prop
  | none => True
  | some b => b < 0

lemma betterThan_zero (ob : Option Int) (h : negOpt ob) :
    betterThan 0 ob = true := by
  cases ob with
  | none => rfl
  | some b => simpa [betterThan] using h

lemma gaStep_stops_at_zero (inst : Instance) (cfg : GA.GAConfig)
    (o : GA.GAOracle) (k : Nat) (st : GA.GAState)
    (hmax : pythonMaxInt (st.population.map (GA.fitness inst)) = .ok 0)
    (hneg : negOpt st.bestFit) :
    GA.gaStep inst cfg o k st = .ok (.stop (GA.evalPhase inst st 0)) ∧
    (GA.evalPhase inst st 0).bestFit = some 0 := by
  have hupd := betterThan_zero st.bestFit hneg
  have hbf : (GA.evalPhase inst st 0).bestFit = some 0 := by
    simp [GA.evalPhase, hupd]
  refine ⟨?_, hbf⟩
  simp only [GA.gaStep, hmax, ok_bind]
  rw [if_pos hbf]

/-- C8: the moment a generation's evaluation drives the global best fitness
to exactly 0 (entering with a not-yet-zero best), the run returns right
there: the result is the evaluated state itself — same population, no
selection, crossover or mutation applied — independently of how many
generations remain, and the recorded best individual has fitness 0. -/
theorem ga_early_stop (inst : Instance) (cfg : GA.GAConfig) (o : GA.GAOracle)
    (g k : Nat) (st : GA.GAState)
    (hmax : pythonMaxInt (st.population.map (GA.fitness inst)) = .ok 0)
    (hneg : negOpt st.bestFit) :
    GA.gaRunAux inst cfg o (g + 1) k st = .ok (GA.evalPhase inst st 0) ∧
    GA.gaRunAux inst cfg o (g + 1) k st = GA.gaRunAux inst cfg o 1 k st ∧
    (GA.evalPhase inst st 0).population = st.population ∧
    (GA.evalPhase inst st 0).bestFit = some 0 ∧
    (∀ b, (GA.evalPhase inst st 0).best = some b → GA.fitness inst b = 0) := by
  obtain ⟨hstep, hbf⟩ := gaStep_stops_at_zero inst cfg o k st hmax hneg
  have hupd := betterThan_zero st.bestFit hneg
  refine ⟨?_, ?_, rfl, hbf, ?_⟩
  · simp only [GA.gaRunAux, hstep]
  · simp only [GA.gaRunAux, hstep]
  · intro b hb
    simp only [GA.evalPhase, hupd, if_pos] at hb
    exact fitness_at_recorded_index (GA.fitness inst) st.population 0 b hb

/-- One-course instance whose every schedule costs 5000 (5 students, the
only room has capacity 0): no run on it can reach fitness 0. -/
def wInst : Instance :=
  ⟨[("A", ⟨5, none, none⟩)], ["A"], [("r1", 0)], ["r1"], ["t1"], []⟩

/-- The only possible schedule over `wInst`. -/
def wS : Schedule := [("A", ("t1", "r1"))]

/-- A concrete genetic oracle: every tournament draws position 0 three
times, crossover coins all come up heads, mutation coins never fire. -/
def wGAO : GA.GAOracle :=
  ⟨fun _ _ => (0, 0, 0), fun _ _ _ => true, fun _ _ _ => (false, 0, 0)⟩

/-- C4 counterexample: with `population_size = 3` (and a single generation)
the bred population holds 4 schedules, not `population_size`; the population
at the start of every later generation's evaluation has 4 members. -/
theorem ga_population_growth_cex :
    GA.gaRun wInst ⟨3, 1⟩ wGAO [wS, wS, wS] =
      .ok ⟨[wS, wS, wS, wS], some wS, some (-5000), [-5000]⟩ ∧
    ¬ (([wS, wS, wS, wS] : List Schedule).length = 3) :=
  ⟨rfl, by decide⟩

/-- The state bred by the generation step of the C4 witness. -/
def wSt1 : GA.GAState := ⟨[wS, wS, wS, wS], some wS, some (-5000), [-5000]⟩

/-- C4 witness: the amended population-size law evaluated on a concrete
generation step with `population_size = 3`. -/
theorem ga_next_generation_size_witness :
    GA.gaStep wInst ⟨3, 1⟩ wGAO 0 ⟨[wS, wS, wS], none, none, []⟩ =
      .ok (.next wSt1) ∧
    (wSt1.population.length = 2 * ((3 + 1) / 2) ∧
     (3 % 2 = 0 → wSt1.population.length = 3) ∧
     (3 % 2 = 1 → wSt1.population.length = 3 + 1)) :=
  ⟨rfl, ga_next_generation_size wInst ⟨3, 1⟩ wGAO 0
    ⟨[wS, wS, wS], none, none, []⟩ wSt1 rfl⟩

/-- One-course instance every schedule of which is feasible (fitness 0). -/
def wFeasInst : Instance :=
  ⟨[("A", ⟨5, none, none⟩)], ["A"], [("r1", 10)], ["r1"], ["t1"], []⟩

/-- C8 witness: on the feasible one-course instance the first generation
evaluates to best fitness 0 and the run stops there with 4 generations of
budget left. -/
theorem ga_early_stop_witness :
    pythonMaxInt (([wS] : List Schedule).map (GA.fitness wFeasInst)) = .ok 0 ∧
    (GA.gaRunAux wFeasInst ⟨1, 5⟩ wGAO (4 + 1) 0 ⟨[wS], none, none, []⟩ =
        .ok (GA.evalPhase wFeasInst ⟨[wS], none, none, []⟩ 0) ∧
     GA.gaRunAux wFeasInst ⟨1, 5⟩ wGAO (4 + 1) 0 ⟨[wS], none, none, []⟩ =
        GA.gaRunAux wFeasInst ⟨1, 5⟩ wGAO 1 0 ⟨[wS], none, none, []⟩ ∧
     (GA.evalPhase wFeasInst ⟨[wS], none, none, []⟩ 0).population = [wS] ∧
     (GA.evalPhase wFeasInst ⟨[wS], none, none, []⟩ 0).bestFit = some 0 ∧
     (∀ b, (GA.evalPhase wFeasInst ⟨[wS], none, none, []⟩ 0).best = some b →
        GA.fitness wFeasInst b = 0)) :=
  ⟨rfl, ga_early_stop wFeasInst ⟨1, 5⟩ wGAO 4 0 ⟨[wS], none, none, []⟩ rfl trivial⟩

lemma ite_lt_eq_max (a b : Int) : (if a < b then b else a) = max a b := by
  by_cases h : a < b
  · rw [if_pos h, max_eq_right h.le]
  · rw [if_neg h, max_eq_left (not_lt.mp h)]

lemma base_le_foldl_max : ∀ (xs : List Int) (x : Int), x ≤ xs.foldl max x := by
  intro xs
  induction xs with
  | nil => intro x; exact le_refl x
  | cons y ys ih => intro x; exact le_trans (le_max_left x y) (ih (max x y))

lemma mem_le_foldl_max : ∀ (xs : List Int) (x a : Int), a ∈ xs → a ≤ xs.foldl max x := by
  intro xs
  induction xs with
  | nil => intro x a ha; cases ha
  | cons y ys ih =>
    intro x a ha
    rcases List.mem_cons.mp ha with rfl | ha
    · exact le_trans (le_max_right x a) (base_le_foldl_max ys (max x a))
    · exact ih (max x y) a ha

lemma saLoop_inv (inst : Instance) (cfg : SA.SAConfig) (o : Nat → SA.SAChoice)
    (f0 : Int) :
    ∀ fuel i st st',
      SA.saLoop inst cfg o fuel i st = .ok st' →
      st.curFit = SA.fitness inst st.current →
      st.bestFit = SA.fitness inst st.best →
      st.bestFit = st.history.foldl max f0 →
      st'.curFit = SA.fitness inst st'.current ∧
      st'.bestFit = SA.fitness inst st'.best ∧
      st'.bestFit = st'.history.foldl max f0 := by
  intro fuel
  induction fuel with
  | zero =>
    intro i st st' h h1 h2 h3
    cases Except.ok.inj h
    exact ⟨h1, h2, h3⟩
  | succ k ih =>
    intro i st st' h h1 h2 h3
    simp only [SA.saLoop] at h
    split at h
    · cases Except.ok.inj h
      exact ⟨h1, h2, h3⟩
    · rw [except_bind_ok] at h
      obtain ⟨cand, -, h⟩ := h
      generalize hQ : (decide (0 < SA.fitness inst cand - st.curFit) ||
        (o i).draw) = Q at h
      have hcf : (if Q = true then SA.fitness inst cand else st.curFit) =
          SA.fitness inst (if Q = true then cand else st.current) := by
        cases Q with
        | false => simpa using h1
        | true => simp
      refine ih (i + 1) _ st' h hcf ?_ ?_
      · dsimp only
        by_cases hB : st.bestFit < (if Q = true then SA.fitness inst cand else st.curFit)
        · rw [if_pos hB, if_pos hB, hcf]
        · rw [if_neg hB, if_neg hB, h2]
      · dsimp only
        rw [List.foldl_append, ← h3, ite_lt_eq_max]
        rfl

/-- C6: the simulated-annealing run returns the best schedule of the whole
trajectory: on a successful run the recorded best fitness is the maximum of
the initial schedule's fitness and every per-iteration current fitness in
`fitness_history`, the returned schedule realizes it, and it dominates every
history entry. -/
theorem sa_returns_trajectory_best (inst : Instance) (cfg : SA.SAConfig)
    (o : Nat → SA.SAChoice) (s0 : Schedule) (st : SA.SAState) (x : Int)
    (h : SA.saRun inst cfg o s0 = .ok st) (hx : x ∈ st.history) :
    st.bestFit = st.history.foldl max (SA.fitness inst s0) ∧
    SA.fitness inst st.best = st.bestFit ∧
    x ≤ st.bestFit := by
  have hinv := saLoop_inv inst cfg o (SA.fitness inst s0) cfg.max_iter 0
    ⟨s0, SA.fitness inst s0, s0, SA.fitness inst s0, cfg.initial_temperature, []⟩
    st h rfl rfl rfl
  refine ⟨hinv.2.2, hinv.2.1.symm, ?_⟩
  rw [hinv.2.2]
  exact mem_le_foldl_max st.history (SA.fitness inst s0) x hx

/-- Concrete SA oracle: always pick position 0 and accept the draw. -/
def wSAO : Nat → SA.SAChoice := fun _ => ⟨0, 0, 0, true⟩

/-- The state the one-iteration witness run ends in. -/
def wSASt : SA.SAState := ⟨wS, -5000, wS, -5000, ⟨1000, 2⟩, [-5000]⟩

/-- C6 witness: a one-iteration run on the infeasible one-course instance. -/
theorem sa_returns_trajectory_best_witness :
    SA.saRun wInst ⟨⟨1000, 1⟩, ⟨1, 2⟩, 1⟩ wSAO wS = .ok wSASt ∧
    (-5000 : Int) ∈ wSASt.history ∧
    (wSASt.bestFit = wSASt.history.foldl max (SA.fitness wInst wS) ∧
     SA.fitness wInst wSASt.best = wSASt.bestFit ∧
     (-5000 : Int) ≤ wSASt.bestFit) :=
  ⟨rfl, by simp [wSASt],
    sa_returns_trajectory_best wInst ⟨⟨1000, 1⟩, ⟨1, 2⟩, 1⟩ wSAO wS wSASt (-5000)
      rfl (by simp [wSASt])⟩

/-- The engine-level consistency between the stored best individual and the
stored best fitness of a genetic run. -/
def gaInv (inst : Instance) (st : GA.GAState) : Prop :=
  ∀ b, st.best = some b → st.bestFit = some (GA.fitness inst b)

lemma gaInv_evalPhase (inst : Instance) (st : GA.GAState) (cb : Int)
    (h : gaInv inst st) : gaInv inst (GA.evalPhase inst st cb) := by
  intro b hb
  unfold GA.evalPhase at hb ⊢
  dsimp only at hb ⊢
  by_cases hu : betterThan cb st.bestFit = true
  · rw [if_pos hu] at hb
    rw [if_pos hu]
    exact congrArg some
      (fitness_at_recorded_index (GA.fitness inst) st.population cb b hb).symm
  · rw [if_neg hu] at hb
    rw [if_neg hu]
    exact h b hb

lemma gaInv_step (inst : Instance) (cfg : GA.GAConfig) (o : GA.GAOracle)
    (g : Nat) (st : GA.GAState) (r : GA.GAStepRes)
    (h : GA.gaStep inst cfg o g st = .ok r) (hinv : gaInv inst st) :
    gaInv inst (match r with | .stop st' => st' | .next st' => st') := by
  obtain ⟨cb, -, hcase⟩ := gaStep_inv inst cfg o g st r h
  rcases hcase with ⟨-, rfl⟩ | ⟨-, sel, ch, pop', -, -, -, rfl⟩
  · exact gaInv_evalPhase inst st cb hinv
  · intro b hb
    exact gaInv_evalPhase inst st cb hinv b hb

lemma gaRunAux_inv (inst : Instance) (cfg : GA.GAConfig) (o : GA.GAOracle) :
    ∀ fuel k st st', GA.gaRunAux inst cfg o fuel k st = .ok st' →
      gaInv inst st → gaInv inst st' := by
  intro fuel
  induction fuel with
  | zero =>
    intro k st st' h hinv
    cases Except.ok.inj h
    exact hinv
  | succ g ih =>
    intro k st st' h hinv
    rw [GA.gaRunAux] at h
    cases hs : GA.gaStep inst cfg o k st with
    | error e => rw [hs] at h; cases h
    | ok r =>
      rw [hs] at h
      cases r with
      | stop st1 =>
        cases Except.ok.inj h
        exact gaInv_step inst cfg o k st _ hs hinv
      | next st1 =>
        exact ih (k + 1) st1 st' h (gaInv_step inst cfg o k st _ hs hinv)

/-- C10: when either engine's `run` returns, the stored best fitness is the
fitness of the stored best individual: for the genetic engine any recorded
best individual's fitness equals the recorded best fitness, and for the
simulated-annealing engine the returned best schedule's fitness equals the
recorded best fitness (the stored best is never touched by later operators:
crossover builds fresh children and `neighbor` copies before reassigning). -/
theorem best_fitness_matches_best (instG : Instance) (cfgG : GA.GAConfig)
    (oG : GA.GAOracle) (pop0 : List Schedule) (stG : GA.GAState) (b : Schedule)
    (instS : Instance) (cfgS : SA.SAConfig) (oS : Nat → SA.SAChoice)
    (s0 : Schedule) (stS : SA.SAState)
    (hG : GA.gaRun instG cfgG oG pop0 = .ok stG) (hGb : stG.best = some b)
    (hS : SA.saRun instS cfgS oS s0 = .ok stS) :
    stG.bestFit = some (GA.fitness instG b) ∧
    stS.bestFit = SA.fitness instS stS.best := by
  constructor
  · have hinv := gaRunAux_inv instG cfgG oG cfgG.generations 0
      ⟨pop0, none, none, []⟩ stG hG (fun b hb => by cases hb)
    exact hinv b hGb
  · exact (saLoop_inv instS cfgS oS (SA.fitness instS s0) cfgS.max_iter 0
      ⟨s0, SA.fitness instS s0, s0, SA.fitness instS s0,
        cfgS.initial_temperature, []⟩ stS hS rfl rfl rfl).2.1

/-- C10 witness: both consistency statements evaluated on the concrete
one-generation genetic run and one-iteration annealing run. -/
theorem best_fitness_matches_best_witness :
    GA.gaRun wInst ⟨3, 1⟩ wGAO [wS, wS, wS] = .ok wSt1 ∧
    wSt1.best = some wS ∧
    SA.saRun wInst ⟨⟨1000, 1⟩, ⟨1, 2⟩, 1⟩ wSAO wS = .ok wSASt ∧
    (wSt1.bestFit = some (GA.fitness wInst wS) ∧
     wSASt.bestFit = SA.fitness wInst wSASt.best) :=
  ⟨rfl, rfl, rfl,
    best_fitness_matches_best wInst ⟨3, 1⟩ wGAO [wS, wS, wS] wSt1 wS
      wInst ⟨⟨1000, 1⟩, ⟨1, 2⟩, 1⟩ wSAO wS wSASt rfl rfl rfl⟩

lemma error_bind {α β : Type} (e : String) (f : α → Except String β) :
    ((Except.error e : Except String α) >>= f) = .error e := rfl

lemma pyChoice_ok {α : Type} (l : List α) (k : Nat) (h : l ≠ []) :
    ∃ a, pyChoice l k = .ok a := by
  refine ⟨_, dif_neg ?_⟩
  intro h0
  exact h (List.length_eq_zero.mp h0)

lemma pyChoice_nil {α : Type} (k : Nat) :
    pyChoice ([] : List α) k = .error "IndexError" := rfl

lemma pyIndex_ok {α : Type} (l : List α) (i : Nat) (h : i < l.length) :
    pyIndex l i = .ok (l.get ⟨i, h⟩) := dif_pos h

lemma pythonMaxInt_ok (l : List Int) (h : l ≠ []) :
    ∃ m, pythonMaxInt l = .ok m := by
  cases l with
  | nil => exact absurd rfl h
  | cons x xs => exact ⟨xs.foldl max x, rfl⟩

lemma alookup_isSome_of_mem_keys {β : Type} (l : List (String × β)) (c : String)
    (h : c ∈ l.map Prod.fst) : ∃ v, alookup l c = some v := by
  induction l with
  | nil => cases h
  | cons p rest ih =>
    by_cases hp : p.1 = c
    · exact ⟨p.2, by simp [alookup, hp]⟩
    · have hr : c ∈ rest.map Prod.fst := by
        rcases List.mem_cons.mp h with heq | hr
        · exact absurd heq.symm hp
        · exact hr
      obtain ⟨v, hv⟩ := ih hr
      exact ⟨v, by simp [alookup, hp, hv]⟩

lemma pyDictGet_ok_of_key {β : Type} (l : List (String × β)) (c : String)
    (h : c ∈ l.map Prod.fst) : ∃ v, pyDictGet l c = .ok v := by
  obtain ⟨v, hv⟩ := alookup_isSome_of_mem_keys l c h
  exact ⟨v, by unfold pyDictGet; rw [hv]⟩

lemma createIndividual_keys (inst : Instance) (pick : Nat → Nat × Nat) :
    ∀ cs i s, GA.createIndividual inst pick cs i = .ok s →
      s.map Prod.fst = cs := by
  intro cs
  induction cs with
  | nil =>
    intro i s h
    cases Except.ok.inj h
    rfl
  | cons c rest ih =>
    intro i s h
    simp only [GA.createIndividual] at h
    rw [except_bind_ok] at h
    obtain ⟨t, -, h⟩ := h
    rw [except_bind_ok] at h
    obtain ⟨r, -, h⟩ := h
    rw [except_bind_ok] at h
    obtain ⟨tail, htail, h⟩ := h
    cases Except.ok.inj h
    simp only [List.map_cons, ih (i + 1) tail htail]

lemma createIndividual_ok (inst : Instance) (pick : Nat → Nat × Nat)
    (hT : inst.times ≠ []) (hR : inst.rooms ≠ []) :
    ∀ cs i, ∃ s, GA.createIndividual inst pick cs i = .ok s := by
  intro cs
  induction cs with
  | nil => intro i; exact ⟨[], rfl⟩
  | cons c rest ih =>
    intro i
    obtain ⟨t, ht⟩ := pyChoice_ok inst.times (pick i).1 hT
    obtain ⟨r, hr⟩ := pyChoice_ok inst.rooms (pick i).2 hR
    obtain ⟨tail, htail⟩ := ih (i + 1)
    refine ⟨(c, (t, r)) :: tail, ?_⟩
    simp only [GA.createIndividual, ht, ok_bind, hr, htail]

lemma createIndividual_fails (inst : Instance) (pick : Nat → Nat × Nat)
    (hdeg : inst.times = [] ∨ inst.rooms = []) (c : Course) (cs : List Course)
    (i : Nat) :
    ∃ e, GA.createIndividual inst pick (c :: cs) i = .error e := by
  rcases hdeg with hdeg | hdeg
  · have hc : pyChoice inst.times (pick i).1 = .error "IndexError" := by
      rw [hdeg]; rfl
    exact ⟨"IndexError", by simp only [GA.createIndividual, hc, error_bind]⟩
  · by_cases hT : inst.times = []
    · have hc : pyChoice inst.times (pick i).1 = .error "IndexError" := by
        rw [hT]; rfl
      exact ⟨"IndexError", by simp only [GA.createIndividual, hc, error_bind]⟩
    · obtain ⟨t, ht⟩ := pyChoice_ok inst.times (pick i).1 hT
      have hc : pyChoice inst.rooms (pick i).2 = .error "IndexError" := by
        rw [hdeg]; rfl
      exact ⟨"IndexError",
        by simp only [GA.createIndividual, ht, ok_bind, hc, error_bind]⟩

lemma initPopAux_keys (inst : Instance) (io : Nat → Nat → Nat × Nat) :
    ∀ n k pop, GA.initPopAux inst io n k = .ok pop →
      pop.length = n ∧ ∀ s ∈ pop, s.map Prod.fst = inst.courses := by
  intro n
  induction n with
  | zero =>
    intro k pop h
    cases Except.ok.inj h
    exact ⟨rfl, fun s hs => by cases hs⟩
  | succ m ih =>
    intro k pop h
    simp only [GA.initPopAux] at h
    rw [except_bind_ok] at h
    obtain ⟨s, hs, h⟩ := h
    rw [except_bind_ok] at h
    obtain ⟨rest, hrest, h⟩ := h
    cases Except.ok.inj h
    obtain ⟨hlen, hkeys⟩ := ih (k + 1) rest hrest
    refine ⟨by simp [hlen], ?_⟩
    intro x hx
    rcases List.mem_cons.mp hx with rfl | hx
    · exact createIndividual_keys inst (io k) inst.courses 0 x hs
    · exact hkeys x hx

lemma initPopulation_fails (inst : Instance) (io : Nat → Nat → Nat × Nat)
    (n : Nat) (hc : inst.courses ≠ []) (hn : 1 ≤ n)
    (hdeg : inst.times = [] ∨ inst.rooms = []) :
    ∃ e, GA.initPopulation inst io n = .error e := by
  cases n with
  | zero => omega
  | succ m =>
    cases hcs : inst.courses with
    | nil => exact absurd hcs hc
    | cons c cs =>
      obtain ⟨e, he⟩ := createIndividual_fails inst (io 0) hdeg c cs 0
      refine ⟨e, ?_⟩
      unfold GA.initPopulation
      simp only [GA.initPopAux, hcs, he, error_bind]

lemma crossoverAux_ok (coin : Nat → Bool) (p1 p2 : Schedule) :
    ∀ cs : List Course, (∀ c ∈ cs, c ∈ p1.map Prod.fst) →
      (∀ c ∈ cs, c ∈ p2.map Prod.fst) → ∀ i,
      ∃ ch1 ch2, GA.crossoverAux coin p1 p2 cs i = .ok (ch1, ch2) ∧
        ch1.map Prod.fst = cs ∧ ch2.map Prod.fst = cs := by
  intro cs
  induction cs with
  | nil => intro _ _ i; exact ⟨[], [], rfl, rfl, rfl⟩
  | cons c rest ih =>
    intro h1 h2 i
    obtain ⟨a1, ha1⟩ := pyDictGet_ok_of_key p1 c (h1 c (List.mem_cons_self c rest))
    obtain ⟨a2, ha2⟩ := pyDictGet_ok_of_key p2 c (h2 c (List.mem_cons_self c rest))
    obtain ⟨t1, t2, ht, hk1, hk2⟩ :=
      ih (fun x hx => h1 x (List.mem_cons.mpr (Or.inr hx)))
        (fun x hx => h2 x (List.mem_cons.mpr (Or.inr hx))) (i + 1)
    cases hcoin : coin i with
    | true =>
      refine ⟨(c, a1) :: t1, (c, a2) :: t2, ?_, ?_, ?_⟩
      · simp only [GA.crossoverAux, ha1, ok_bind, ha2, ht, hcoin, if_true]
      · simp only [List.map_cons, hk1]
      · simp only [List.map_cons, hk2]
    | false =>
      refine ⟨(c, a2) :: t1, (c, a1) :: t2, ?_, ?_, ?_⟩
      · simp only [GA.crossoverAux, ha1, ok_bind, ha2, ht, hcoin,
          Bool.false_eq_true, if_false]
      · simp only [List.map_cons, hk1]
      · simp only [List.map_cons, hk2]

lemma gaMutate_ok (inst : Instance) (mo : Nat → Bool × Nat × Nat)
    (hT : inst.times ≠ []) (hR : inst.rooms ≠ []) :
    ∀ (s : Schedule) (i : Nat), ∃ s', GA.gaMutate inst mo s i = .ok s' ∧
      s'.map Prod.fst = s.map Prod.fst := by
  intro s
  induction s with
  | nil => intro i; exact ⟨[], rfl, rfl⟩
  | cons e rest ih =>
    intro i
    obtain ⟨tail, htail, hkeys⟩ := ih (i + 1)
    obtain ⟨c, a⟩ := e
    cases hm : (mo i).1 with
    | true =>
      obtain ⟨t, ht⟩ := pyChoice_ok inst.times (mo i).2.1 hT
      obtain ⟨r, hr⟩ := pyChoice_ok inst.rooms (mo i).2.2 hR
      refine ⟨(c, (t, r)) :: tail, ?_, by simp only [List.map_cons, hkeys]⟩
      simp only [GA.gaMutate, hm, if_true, ht, ok_bind, hr, htail]
      rfl
    | false =>
      refine ⟨(c, a) :: tail, ?_, by simp only [List.map_cons, hkeys]⟩
      simp only [GA.gaMutate, hm, Bool.false_eq_true, if_false, ok_bind, htail]
      rfl

lemma mutatePopulation_ok (inst : Instance) (mo : Nat → Nat → Bool × Nat × Nat)
    (hT : inst.times ≠ []) (hR : inst.rooms ≠ []) :
    ∀ (l : List Schedule) (j : Nat),
      (∀ s ∈ l, s.map Prod.fst = inst.courses) →
      ∃ l', GA.mutatePopulation inst mo l j = .ok l' ∧
        ∀ s' ∈ l', s'.map Prod.fst = inst.courses := by
  intro l
  induction l with
  | nil => intro j _; exact ⟨[], rfl, fun s hs => by cases hs⟩
  | cons s rest ih =>
    intro j hkeys
    obtain ⟨s', hs', hk⟩ := gaMutate_ok inst (mo j) hT hR s 0
    obtain ⟨tail, htail, hkt⟩ :=
      ih (j + 1) (fun x hx => hkeys x (List.mem_cons.mpr (Or.inr hx)))
    refine ⟨s' :: tail, ?_, ?_⟩
    · simp only [GA.mutatePopulation, hs', ok_bind, htail]
    · intro x hx
      rcases List.mem_cons.mp hx with rfl | hx
      · rw [hk]; exact hkeys s (List.mem_cons_self s rest)
      · exact hkt x hx

lemma tournamentWinner_mem (rest : List (Schedule × Int)) :
    ∀ c : Schedule × Int,
      GA.tournamentWinner c rest ∈ (c :: rest).map Prod.fst := by
  induction rest with
  | nil => intro c; exact List.mem_singleton.mpr rfl
  | cons x xs ih =>
    intro c
    show GA.tournamentWinner (if c.2 < x.2 then x else c) xs ∈
      (c :: x :: xs).map Prod.fst
    have h := ih (if c.2 < x.2 then x else c)
    simp only [List.map_cons, List.mem_cons] at h ⊢
    by_cases hc : c.2 < x.2
    · rw [if_pos hc] at h ⊢
      rcases h with h | h
      · exact Or.inr (Or.inl h)
      · exact Or.inr (Or.inr h)
    · rw [if_neg hc] at h ⊢
      rcases h with h | h
      · exact Or.inl h
      · exact Or.inr (Or.inr h)

lemma getD_mem {α : Type} (l : List α) (i : Nat) (d : α) (h : i < l.length) :
    l.getD i d ∈ l := by
  rw [List.getD_eq_getElem?_getD, List.getElem?_eq_getElem h]
  exact List.getElem_mem h

lemma selectPopulation_ok (pop : List Schedule) (fits : List Int) (n : Nat)
    (tour : Nat → Nat × Nat × Nat) (h3 : 3 ≤ (pop.zip fits).length) :
    ∃ sel, GA.selectPopulation pop fits n tour = .ok sel ∧
      sel.length = n ∧ ∀ s ∈ sel, s ∈ pop := by
  have hnz : 0 < (pop.zip fits).length := by omega
  have hsel : GA.selectPopulation pop fits n tour =
      .ok ((List.range n).map (fun k =>
        GA.tournamentWinner
          ((pop.zip fits).getD ((tour k).1 % (pop.zip fits).length) ([], 0))
          [(pop.zip fits).getD ((tour k).2.1 % (pop.zip fits).length) ([], 0),
           (pop.zip fits).getD ((tour k).2.2 % (pop.zip fits).length) ([], 0)])) := by
    simp only [GA.selectPopulation]
    rw [if_neg (by omega)]
  refine ⟨_, hsel, by simp, ?_⟩
  intro s hs
  simp only [List.mem_map, List.mem_range] at hs
  obtain ⟨k, -, hk⟩ := hs
  have hmem : ∀ j : Nat,
      (pop.zip fits).getD (j % (pop.zip fits).length) ([], 0) ∈ pop.zip fits :=
    fun j => getD_mem (pop.zip fits) (j % (pop.zip fits).length) ([], 0)
      (Nat.mod_lt j hnz)
  have hw := tournamentWinner_mem
    [(pop.zip fits).getD ((tour k).2.1 % (pop.zip fits).length) ([], 0),
     (pop.zip fits).getD ((tour k).2.2 % (pop.zip fits).length) ([], 0)]
    ((pop.zip fits).getD ((tour k).1 % (pop.zip fits).length) ([], 0))
  rw [hk] at hw
  simp only [List.map_cons, List.mem_cons] at hw
  rcases hw with hw | hw | hw | hw
  · rw [hw]; exact (List.of_mem_zip (hmem (tour k).1)).1
  · rw [hw]; exact (List.of_mem_zip (hmem (tour k).2.1)).1
  · rw [hw]; exact (List.of_mem_zip (hmem (tour k).2.2)).1
  · cases hw

lemma pyIndex_mem_ok {α : Type} (l : List α) (i : Nat) (h : i < l.length) :
    ∃ a, pyIndex l i = .ok a ∧ a ∈ l :=
  ⟨l.get ⟨i, h⟩, pyIndex_ok l i h, l.get_mem _ _⟩

lemma gaBreed_ok (inst : Instance) (n : Nat) (co : Nat → Nat → Bool)
    (sel : List Schedule) (hlen : sel.length = n) (hn : 3 ≤ n)
    (hkeys : ∀ s ∈ sel, s.map Prod.fst = inst.courses) :
    ∀ cnt pr, 2 * (pr + cnt) ≤ n + 1 →
      ∃ ch, GA.gaBreed inst n co sel cnt pr = .ok ch ∧
        ∀ s ∈ ch, s.map Prod.fst = inst.courses := by
  intro cnt
  induction cnt with
  | zero => intro pr _; exact ⟨[], rfl, fun s hs => by cases hs⟩
  | succ m ih =>
    intro pr hb
    obtain ⟨p1, hp1, hm1⟩ := pyIndex_mem_ok sel (2 * pr) (by omega)
    obtain ⟨p2, hp2, hm2⟩ :=
      pyIndex_mem_ok sel ((2 * pr + 1) % n) (by rw [hlen]; exact Nat.mod_lt _ (by omega))
    have hk1 := hkeys p1 hm1
    have hk2 := hkeys p2 hm2
    obtain ⟨c1, c2, hx, hxk1, hxk2⟩ := crossoverAux_ok (co pr) p1 p2 inst.courses
      (fun c hc => by rw [hk1]; exact hc) (fun c hc => by rw [hk2]; exact hc) 0
    obtain ⟨rest, hrest, hrk⟩ := ih (pr + 1) (by omega)
    refine ⟨c1 :: c2 :: rest, ?_, ?_⟩
    · simp only [GA.gaBreed, hp1, ok_bind, hp2, GA.crossover, hx, hrest]
    · intro s hs
      rcases List.mem_cons.mp hs with rfl | hs
      · exact hxk1
      · rcases List.mem_cons.mp hs with rfl | hs
        · exact hxk2
        · exact hrk s hs

lemma gaStep_ok (inst : Instance) (cfg : GA.GAConfig) (o : GA.GAOracle) (g : Nat)
    (st : GA.GAState) (hT : inst.times ≠ []) (hR : inst.rooms ≠ [])
    (hn : 3 ≤ cfg.population_size) (hp3 : 3 ≤ st.population.length)
    (hkeys : ∀ s ∈ st.population, s.map Prod.fst = inst.courses) :
    ∃ r, GA.gaStep inst cfg o g st = .ok r ∧
      ∀ st', r = .next st' → 3 ≤ st'.population.length ∧
        ∀ s ∈ st'.population, s.map Prod.fst = inst.courses := by
  obtain ⟨cb, hcb⟩ := pythonMaxInt_ok (st.population.map (GA.fitness inst)) (by
    intro h0
    rw [List.map_eq_nil] at h0
    rw [h0] at hp3
    exact absurd hp3 (by decide))
  by_cases h0 : (GA.evalPhase inst st cb).bestFit = some 0
  · refine ⟨.stop (GA.evalPhase inst st cb), ?_, ?_⟩
    · simp only [GA.gaStep, hcb, ok_bind]
      rw [if_pos h0]
    · intro st' h'
      cases h'
  · have hz3 : 3 ≤ (st.population.zip (st.population.map (GA.fitness inst))).length := by
      rw [List.length_zip, List.length_map]
      omega
    obtain ⟨sel, hsel, hsellen, hselmem⟩ := selectPopulation_ok st.population
      (st.population.map (GA.fitness inst)) cfg.population_size (o.tour g) hz3
    have hselkeys : ∀ s ∈ sel, s.map Prod.fst = inst.courses :=
      fun s hs => hkeys s (hselmem s hs)
    obtain ⟨ch, hch, hchk⟩ := gaBreed_ok inst cfg.population_size (o.cross g) sel
      hsellen hn hselkeys ((cfg.population_size + 1) / 2) 0 (by omega)
    obtain ⟨pop', hpop, hpopk⟩ := mutatePopulation_ok inst (o.mutOracle g) hT hR ch 0 hchk
    refine ⟨.next ⟨pop', (GA.evalPhase inst st cb).best,
      (GA.evalPhase inst st cb).bestFit, (GA.evalPhase inst st cb).history⟩, ?_, ?_⟩
    · simp only [GA.gaStep, hcb, ok_bind]
      rw [if_neg h0]
      simp only [hsel, ok_bind, hch, hpop]
    · intro st' h'
      cases GA.GAStepRes.next.inj h'
      refine ⟨?_, hpopk⟩
      have hl1 := gaBreed_ok_length inst cfg.population_size (o.cross g) sel
        ((cfg.population_size + 1) / 2) 0 ch hch
      have hl2 := mutatePopulation_ok_length inst (o.mutOracle g) ch 0 pop' hpop
      simp only []
      omega

lemma gaRunAux_ok (inst : Instance) (cfg : GA.GAConfig) (o : GA.GAOracle)
    (hT : inst.times ≠ []) (hR : inst.rooms ≠ [])
    (hn : 3 ≤ cfg.population_size) :
    ∀ fuel k st, 3 ≤ st.population.length →
      (∀ s ∈ st.population, s.map Prod.fst = inst.courses) →
      ∃ st', GA.gaRunAux inst cfg o fuel k st = .ok st' := by
  intro fuel
  induction fuel with
  | zero => intro k st _ _; exact ⟨st, rfl⟩
  | succ g ih =>
    intro k st hp3 hkeys
    obtain ⟨r, hr, hnext⟩ := gaStep_ok inst cfg o k st hT hR hn hp3 hkeys
    cases r with
    | stop st1 =>
      refine ⟨st1, ?_⟩
      simp only [GA.gaRunAux, hr]
    | next st1 =>
      obtain ⟨hl, hk⟩ := hnext st1 rfl
      obtain ⟨st', hst'⟩ := ih (k + 1) st1 hl hk
      refine ⟨st', ?_⟩
      simp only [GA.gaRunAux, hr]
      exact hst'

/-- The state one simulated-annealing iteration hands to the next, given the
proposed neighbor `cand` and the cooled temperature. -/
def saNext (inst : Instance) (ch : SA.SAChoice) (st : SA.SAState)
    (cand : Schedule) (temp' : Frac) : SA.SAState :=
  let candFit := SA.fitness inst cand
  let delta := candFit - st.curFit
  let accept := decide (0 < delta) || ch.draw
  let cur' := if accept then cand else st.current
  let cf' := if accept then candFit else st.curFit
  let b' := if st.bestFit < cf' then cur' else st.best
  let bf' := if st.bestFit < cf' then cf' else st.bestFit
  ⟨cur', cf', b', bf', temp', st.history ++ [cf']⟩

lemma saLoop_ok (inst : Instance) (cfg : SA.SAConfig) (o : Nat → SA.SAChoice)
    (hC : inst.courses ≠ []) (hT : inst.times ≠ []) (hR : inst.rooms ≠ []) :
    ∀ fuel i st, ∃ st', SA.saLoop inst cfg o fuel i st = .ok st' := by
  intro fuel
  induction fuel with
  | zero => intro i st; exact ⟨st, rfl⟩
  | succ k ih =>
    intro i st
    by_cases hf : (st.temp.mul cfg.cooling_rate).le SA.tempFloor
    · refine ⟨⟨st.current, st.curFit, st.best, st.bestFit,
        st.temp.mul cfg.cooling_rate, st.history⟩, ?_⟩
      simp only [SA.saLoop]
      rw [if_pos hf]
    · obtain ⟨c, hc⟩ := pyChoice_ok inst.courses (o i).courseIdx hC
      obtain ⟨t, ht⟩ := pyChoice_ok inst.times (o i).timeIdx hT
      obtain ⟨r, hr⟩ := pyChoice_ok inst.rooms (o i).roomIdx hR
      have hnb : SA.neighbor inst (o i) st.current =
          .ok (aupdate st.current c (t, r)) := by
        simp only [SA.neighbor, hc, ok_bind, ht, hr]
      obtain ⟨st', hst'⟩ := ih (i + 1)
        (saNext inst (o i) st (aupdate st.current c (t, r))
          (st.temp.mul cfg.cooling_rate))
      refine ⟨st', ?_⟩
      simp only [SA.saLoop]
      rw [if_neg hf, hnb, ok_bind]
      exact hst'

/-- C5 counterexample: with `population_size = 1` on a perfectly well-formed
instance (one room, one time slot, one course) the genetic run raises
`ValueError` mid-run: tournament selection samples 3 competitors from a
population of 1. -/
theorem ga_run_midrun_failure_cex :
    GA.gaRun wInst ⟨1, 1⟩ wGAO [wS] = .error "ValueError" ∧
    wInst.rooms ≠ [] ∧ wInst.times ≠ [] :=
  ⟨rfl, by decide, by decide⟩

/-- C5 amended: runs cannot raise beyond these cases — the degenerate
zero-rooms / zero-time-slots instance is surfaced while the constructor
builds the initial population (provided there is at least one course and one
individual to build), and whenever the instance has a room, a time slot and
a course, the annealing run always completes, as does the genetic run when
additionally `population_size ≥ 3` (for smaller populations tournament
sampling raises mid-run, as the counterexample shows). -/
theorem run_totality_and_construction_failure (inst : Instance)
    (cfg : GA.GAConfig) (o : GA.GAOracle) (io : Nat → Nat → Nat × Nat)
    (pop0 : List Schedule) (cfgS : SA.SAConfig) (oS : Nat → SA.SAChoice)
    (s0 : Schedule)
    (hT : inst.times ≠ []) (hR : inst.rooms ≠ []) (hC : inst.courses ≠ [])
    (hn : 3 ≤ cfg.population_size)
    (hinit : GA.initPopulation inst io cfg.population_size = .ok pop0) :
    (∃ st, GA.gaRun inst cfg o pop0 = .ok st) ∧
    (∃ st2, SA.saRun inst cfgS oS s0 = .ok st2) ∧
    (∀ (inst2 : Instance) (io2 : Nat → Nat → Nat × Nat) (n2 : Nat),
      inst2.courses ≠ [] → 1 ≤ n2 → (inst2.times = [] ∨ inst2.rooms = []) →
      ∃ e, GA.initPopulation inst2 io2 n2 = .error e) := by
  obtain ⟨hlen, hkeys⟩ := initPopAux_keys inst io cfg.population_size 0 pop0 hinit
  refine ⟨?_, ?_, ?_⟩
  · exact gaRunAux_ok inst cfg o hT hR hn cfg.generations 0
      ⟨pop0, none, none, []⟩ (by rw [hlen] at *; exact hn) hkeys
  · exact saLoop_ok inst cfgS oS hC hT hR cfgS.max_iter 0 _
  · exact fun inst2 io2 n2 hc2 hn2 hdeg => initPopulation_fails inst2 io2 n2 hc2 hn2 hdeg

/-- C5 witness: the amended statement on the concrete one-course instance
with `population_size = 3`. -/
theorem run_totality_witness :
    wInst.times ≠ [] ∧ wInst.rooms ≠ [] ∧ wInst.courses ≠ [] ∧
    GA.initPopulation wInst (fun _ _ => (0, 0)) 3 = .ok [wS, wS, wS] ∧
    ((∃ st, GA.gaRun wInst ⟨3, 2⟩ wGAO [wS, wS, wS] = .ok st) ∧
     (∃ st2, SA.saRun wInst ⟨⟨1000, 1⟩, ⟨1, 2⟩, 1⟩ wSAO wS = .ok st2) ∧
     (∀ (inst2 : Instance) (io2 : Nat → Nat → Nat × Nat) (n2 : Nat),
       inst2.courses ≠ [] → 1 ≤ n2 → (inst2.times = [] ∨ inst2.rooms = []) →
       ∃ e, GA.initPopulation inst2 io2 n2 = .error e)) :=
  ⟨by decide, by decide, by decide, rfl,
    run_totality_and_construction_failure wInst ⟨3, 2⟩ wGAO (fun _ _ => (0, 0))
      [wS, wS, wS] ⟨⟨1000, 1⟩, ⟨1, 2⟩, 1⟩ wSAO wS (by decide) (by decide)
      (by decide) (by decide) rfl⟩

end UCTP
